import Mathlib

/-!
# Verification of the Exonian article-workflow bot core logic

Shallow embedding of `exonian_bot.py` — the deadline codec
(`parse_when`, topic encode/decode), the slug normalizer (`slugify`),
the Archived-state permission-overwrite computation duplicated in the
`/archive` command and the 5-minute sweeper, and the mutation/control
flow of the `/new_article` and `/archive` command handlers.

Modelling conventions:
* Python strings are `List Char`; character classification (`isalnum`,
  `lower`) is modelled on the ASCII range that the bot's inputs use.
* Python `datetime` values are records of `Nat` fields
  (year/month/day/hour/minute/second); validity (month and day ranges,
  `MINYEAR = 1`, `MAXYEAR = 9999`, leap years) is an explicit check,
  mirroring the `ValueError` raised by the `datetime` constructor.
  The program never produces sub-second precision, so microseconds are
  not modelled.
* Python dicts with insertion order (the permission-overwrite maps) are
  association lists; assignment updates the first matching key in place
  or appends a fresh key at the end.
* Fallible library calls are `Option`; an exception that a handler
  catches is the `none` / error branch of the embedded function.
-/

/-- Tri-state permission flag of a single overwrite slot: Python
`None` / `True` / `False` on a `PermissionOverwrite` field. -/
inductive Tri where
  | inherit
  | allow
  | deny
deriving DecidableEq, Repr

/-- One `discord.PermissionOverwrite` restricted to the four flags the
bot ever sets: `view_channel`, `send_messages`, `read_message_history`,
`manage_messages`.  Unset keyword arguments are `inherit`. -/
structure Overwrite where
  view : Tri
  send : Tri
  readHistory : Tri
  manageMessages : Tri
deriving DecidableEq, Repr

/-- Key of a permission-overwrite map entry: a role (the guild's
default `@everyone` role is `role defaultId`), a member, or any other
object (the `isinstance` fall-through branch of the cleaning loops). -/
inductive Target where
  | role (id : Nat)
  | member (id : Nat)
  | other (id : Nat)
deriving DecidableEq, Repr

/-- Overwrite maps: Python dicts keyed by role/member, in insertion
order. -/
abbrev OverwriteMap := List (Target × Overwrite)

/-- Python dict assignment `m[k] = v`: replace the value at the first
occurrence of `k`, keeping its position; append `(k, v)` if absent. -/
def setEntry (m : OverwriteMap) (k : Target) (v : Overwrite) : OverwriteMap :=
  match m with
  | [] => [(k, v)]
  | (k', v') :: rest => if k' = k then (k, v) :: rest else (k', v') :: setEntry rest k v

/-- Per-entry cleaning of `archive_channel` (src lines 299–315): members
and non-Editors roles become view/readHistory allow, send deny; the
Editors role (when the role exists and the ids match) keeps send allow;
any other target gets view allow, send deny, readHistory unset. -/
def cleanEntry (editors : Option Nat) (t : Target) : Overwrite :=
  match t with
  | .member _ => ⟨.allow, .deny, .allow, .inherit⟩
  | .role i =>
    match editors with
    | some e =>
      if i = e then ⟨.allow, .allow, .allow, .inherit⟩
      else ⟨.allow, .deny, .allow, .inherit⟩
    | none => ⟨.allow, .deny, .allow, .inherit⟩
  | .other _ => ⟨.allow, .deny, .inherit, .inherit⟩

/-- The Archived-state overwrite computation of `archive_channel`
(src lines 293–317): first assign the default role an explicit
view-allow / send-deny / readHistory-allow overwrite, then rebuild the
whole map entry by entry with `cleanEntry`. -/
def archiveOverwrites (editors : Option Nat) (defaultId : Nat)
    (ow : OverwriteMap) : OverwriteMap :=
  (setEntry ow (.role defaultId) ⟨.allow, .deny, .allow, .inherit⟩).map
    (fun x => (x.1, cleanEntry editors x.1))

/-- Per-entry cleaning duplicated inside `sweeper` (src lines 353–368);
transcribed separately from the sweeper's own loop body. -/
def sweepCleanEntry (editors : Option Nat) (t : Target) : Overwrite :=
  match t with
  | .member _ => ⟨.allow, .deny, .allow, .inherit⟩
  | .role i =>
    match editors with
    | some e =>
      if i = e then ⟨.allow, .allow, .allow, .inherit⟩
      else ⟨.allow, .deny, .allow, .inherit⟩
    | none => ⟨.allow, .deny, .allow, .inherit⟩
  | .other _ => ⟨.allow, .deny, .inherit, .inherit⟩

/-- The Archived-state overwrite computation duplicated inside
`sweeper` (src lines 348–369). -/
def sweepArchiveOverwrites (editors : Option Nat) (defaultId : Nat)
    (ow : OverwriteMap) : OverwriteMap :=
  (setEntry ow (.role defaultId) ⟨.allow, .deny, .allow, .inherit⟩).map
    (fun x => (x.1, sweepCleanEntry editors x.1))

/-! ## Datetime model -/

/-- Python `datetime.datetime` as used by the bot (no microseconds —
every datetime the program builds has microsecond 0). -/
structure DateTime where
  year : Nat
  month : Nat
  day : Nat
  hour : Nat
  minute : Nat
  second : Nat
deriving DecidableEq, Repr

/-- Gregorian leap year, as Python's `calendar`/`datetime` use it. -/
def isLeap (y : Nat) : Bool :=
  (y % 4 == 0 && y % 100 != 0) || y % 400 == 0

/-- Days in a month of a given year. -/
def daysInMonth (y m : Nat) : Nat :=
  if m = 2 then (if isLeap y then 29 else 28)
  else if m = 4 ∨ m = 6 ∨ m = 9 ∨ m = 11 then 30
  else 31

/-- The range checks the `datetime` constructor performs
(`MINYEAR = 1`, `MAXYEAR = 9999`); a failing check is the constructor's
`ValueError`. -/
def isValidDT (dt : DateTime) : Bool :=
  decide (1 ≤ dt.year) && decide (dt.year ≤ 9999) &&
  decide (1 ≤ dt.month) && decide (dt.month ≤ 12) &&
  decide (1 ≤ dt.day) && decide (dt.day ≤ daysInMonth dt.year dt.month) &&
  decide (dt.hour ≤ 23) && decide (dt.minute ≤ 59) && decide (dt.second ≤ 59)

/-- `datetime` construction: `some` on success, `none` for the
`ValueError` a caller catches. -/
def checkValid (dt : DateTime) : Option DateTime :=
  if isValidDT dt then some dt else none

/-- Python `datetime.__lt__`: field-lexicographic comparison. -/
def dtLt (a b : DateTime) : Bool :=
  decide (a.year < b.year) || (a.year == b.year &&
    (decide (a.month < b.month) || (a.month == b.month &&
      (decide (a.day < b.day) || (a.day == b.day &&
        (decide (a.hour < b.hour) || (a.hour == b.hour &&
          (decide (a.minute < b.minute) || (a.minute == b.minute &&
            decide (a.second < b.second))))))))))

/-! ## Digit and string helpers -/

/-- Character of a single decimal digit. -/
def digitChar (n : Nat) : Char := Char.ofNat (48 + n)

/-- Decimal digit value of a character, `none` on a non-digit. -/
def parseDigit (c : Char) : Option Nat :=
  if '0' ≤ c ∧ c ≤ '9' then some (c.toNat - 48) else none

/-- Zero-padded two-digit rendering (`%02d`), for values below 100. -/
def pad2 (n : Nat) : List Char := [digitChar (n / 10 % 10), digitChar (n % 10)]

/-- Zero-padded four-digit rendering (`%04d`), for values below 10000. -/
def pad4 (n : Nat) : List Char :=
  [digitChar (n / 1000 % 10), digitChar (n / 100 % 10),
   digitChar (n / 10 % 10), digitChar (n % 10)]

/-- `datetime.isoformat()` for a microsecond-free value:
`YYYY-MM-DDTHH:MM:SS`. -/
def isoChars (dt : DateTime) : List Char :=
  pad4 dt.year ++ '-' :: pad2 dt.month ++ '-' :: pad2 dt.day ++
  'T' :: pad2 dt.hour ++ ':' :: pad2 dt.minute ++ ':' :: pad2 dt.second

/-- Exactly two decimal digits, returning the value and the rest. -/
def isoParse2 : List Char → Option (Nat × List Char)
  | c1 :: c2 :: rest =>
    match parseDigit c1, parseDigit c2 with
    | some a, some b => some (10 * a + b, rest)
    | _, _ => none
  | _ => none

/-- Exactly four decimal digits, returning the value and the rest. -/
def isoParse4 : List Char → Option (Nat × List Char)
  | c1 :: c2 :: c3 :: c4 :: rest =>
    match parseDigit c1, parseDigit c2, parseDigit c3, parseDigit c4 with
    | some a, some b, some c, some d => some (1000 * a + 100 * b + 10 * c + d, rest)
    | _, _, _, _ => none
  | _ => none

/-- `datetime.fromisoformat` on the subset the program exercises:
`YYYY-MM-DD`, optionally followed by a one-character separator and
`HH[:MM[:SS]]`; range checks as in the `datetime` constructor.
Fractional seconds and UTC offsets, which the program never writes,
are not modelled.  `none` is the `ValueError` the caller catches. -/
def fromIso (l : List Char) : Option DateTime :=
  match isoParse4 l with
  | some (y, '-' :: r1) =>
    (match isoParse2 r1 with
     | some (mo, '-' :: r2) =>
       (match isoParse2 r2 with
        | some (d, rest) =>
          (match rest with
           | [] => checkValid ⟨y, mo, d, 0, 0, 0⟩
           | _sep :: tr =>
             (match isoParse2 tr with
              | some (h, trest) =>
                (match trest with
                 | [] => checkValid ⟨y, mo, d, h, 0, 0⟩
                 | ':' :: tr2 =>
                   (match isoParse2 tr2 with
                    | some (mi, trest2) =>
                      (match trest2 with
                       | [] => checkValid ⟨y, mo, d, h, mi, 0⟩
                       | ':' :: tr3 =>
                         (match isoParse2 tr3 with
                          | some (s, []) => checkValid ⟨y, mo, d, h, mi, s⟩
                          | _ => none)
                       | _ => none)
                    | _ => none)
                 | _ => none)
              | _ => none)
           )
        | _ => none)
     | _ => none)
  | _ => none

/-- Python `pat in s` substring test. -/
def containsSub (pat : List Char) : List Char → Bool
  | [] => pat.isPrefixOf []
  | c :: rest => pat.isPrefixOf (c :: rest) || containsSub pat rest

/-- The fixed opening tag `DEADLINE_TAG = "[deadline: "`. -/
def tagL : List Char := "[deadline: ".toList

/-- `topic.index(DEADLINE_TAG)` followed by the slice bookkeeping of
`extract_deadline_from_topic`: returns the part strictly before the
first occurrence of the tag and the part strictly after it, `none`
when the tag does not occur. -/
def splitAtTag : List Char → Option (List Char × List Char)
  | [] => none
  | c :: rest =>
    if tagL.isPrefixOf (c :: rest) then some ([], (c :: rest).drop tagL.length)
    else
      match splitAtTag rest with
      | none => none
      | some (b, a) => some (c :: b, a)

/-- `extract_deadline_from_topic` (src lines 86–94): empty/missing topic
or missing tag gives `none`; otherwise take the substring between the
end of the first tag occurrence and the next `]`, and parse it as ISO
(a missing `]` is the `ValueError` of `index`, an unparsable substring
the one of `fromisoformat`; both are caught and give `none`). -/
def extract_deadline_from_topic (topic : Option (List Char)) : Option DateTime :=
  match topic with
  | none => none
  | some t =>
    if t.isEmpty || !containsSub tagL t then none
    else
      match splitAtTag t with
      | none => none
      | some (_, after) =>
        if after.contains ']' then fromIso (after.takeWhile (fun c => c != ']'))
        else none

/-- The part of the topic written before the deadline tag by
`new_article` (src line 237). -/
def articlePrefix (title : List Char) : List Char :=
  "Article: ".toList ++ title ++ " | ".toList

/-- The topic string written by `new_article` (src line 237):
`f"Article: {title} | {DEADLINE_TAG}{dt.isoformat()}]"`. -/
def encodeTopic (title : List Char) (dt : DateTime) : List Char :=
  articlePrefix title ++ tagL ++ isoChars dt ++ [']']

/-! ## `parse_when` and its four strptime formats -/

/-- `str.strip()` on the ends of the input. -/
def stripWS (l : List Char) : List Char :=
  ((l.dropWhile Char.isWhitespace).reverse.dropWhile Char.isWhitespace).reverse

/-- ASCII `str.lower` on one character. -/
def lowerCh (c : Char) : Char :=
  if 'A' ≤ c ∧ c ≤ 'Z' then Char.ofNat (c.toNat + 32) else c

/-- strptime's one-or-two-digit numeric fields (`%m`, `%d`, `%H`, `%M`):
prefer two digits when they form an in-range value, else fall back to a
single digit; `zeroOk` is false for `%m`/`%d`, whose patterns exclude
`0`/`00`. -/
def parseNum12 (maxv : Nat) (zeroOk : Bool) : List Char → Option (Nat × List Char)
  | [] => none
  | [c1] =>
    match parseDigit c1 with
    | some a => if (zeroOk || decide (1 ≤ a)) && decide (a ≤ maxv) then some (a, []) else none
    | none => none
  | c1 :: c2 :: rest =>
    match parseDigit c1, parseDigit c2 with
    | some a, some b =>
      let v := 10 * a + b
      if (zeroOk || decide (1 ≤ v)) && decide (v ≤ maxv) then some (v, rest)
      else if (zeroOk || decide (1 ≤ a)) && decide (a ≤ maxv) then some (a, c2 :: rest)
      else none
    | some a, none =>
      if (zeroOk || decide (1 ≤ a)) && decide (a ≤ maxv) then some (a, c2 :: rest) else none
    | none, _ => none

/-- The locale month abbreviations strptime's `%b` accepts,
lowercased. -/
def monthAbbrevs : List (List Char) :=
  (["jan", "feb", "mar", "apr", "may", "jun",
    "jul", "aug", "sep", "oct", "nov", "dec"] : List String).map String.toList

/-- strptime `%b`: a case-insensitive three-letter month abbreviation,
returning the month number and the rest. -/
def parseMonthName : List Char → Option (Nat × List Char)
  | c1 :: c2 :: c3 :: rest =>
    (match monthAbbrevs.findIdx? (fun m => m == [lowerCh c1, lowerCh c2, lowerCh c3]) with
     | some i => some (i + 1, rest)
     | none => none)
  | _ => none

/-- Structural match of `"%Y-%m-%d %H:%M"` (whitespace in the format is
modelled as the single space the program's inputs use). -/
def fmtYmdHM (s : List Char) : Option DateTime :=
  match isoParse4 s with
  | some (y, '-' :: r1) =>
    (match parseNum12 12 false r1 with
     | some (mo, '-' :: r2) =>
       (match parseNum12 31 false r2 with
        | some (d, ' ' :: r3) =>
          (match parseNum12 23 true r3 with
           | some (h, ':' :: r4) =>
             (match parseNum12 59 true r4 with
              | some (mi, []) => some ⟨y, mo, d, h, mi, 0⟩
              | _ => none)
           | _ => none)
        | _ => none)
     | _ => none)
  | _ => none

/-- Structural match of `"%Y-%m-%d"`. -/
def fmtYmd (s : List Char) : Option DateTime :=
  match isoParse4 s with
  | some (y, '-' :: r1) =>
    (match parseNum12 12 false r1 with
     | some (mo, '-' :: r2) =>
       (match parseNum12 31 false r2 with
        | some (d, []) => some ⟨y, mo, d, 0, 0, 0⟩
        | _ => none)
     | _ => none)
  | _ => none

/-- Structural match of `"%b %d %Y %H:%M"`. -/
def fmtBdYHM (s : List Char) : Option DateTime :=
  match parseMonthName s with
  | some (mo, ' ' :: r1) =>
    (match parseNum12 31 false r1 with
     | some (d, ' ' :: r2) =>
       (match isoParse4 r2 with
        | some (y, ' ' :: r3) =>
          (match parseNum12 23 true r3 with
           | some (h, ':' :: r4) =>
             (match parseNum12 59 true r4 with
              | some (mi, []) => some ⟨y, mo, d, h, mi, 0⟩
              | _ => none)
           | _ => none)
        | _ => none)
     | _ => none)
  | _ => none

/-- Structural match of `"%b %d %H:%M"`; strptime's default year is
1900 when the format has no `%Y`. -/
def fmtBdHM (s : List Char) : Option DateTime :=
  match parseMonthName s with
  | some (mo, ' ' :: r1) =>
    (match parseNum12 31 false r1 with
     | some (d, ' ' :: r2) =>
       (match parseNum12 23 true r2 with
        | some (h, ':' :: r3) =>
          (match parseNum12 59 true r3 with
           | some (mi, []) => some ⟨1900, mo, d, h, mi, 0⟩
           | _ => none)
        | _ => none)
     | _ => none)
  | _ => none

/-- `parse_when` (src lines 71–82): strip the input, try the four
formats in order — a structural mismatch and an out-of-range datetime
are both the `ValueError` that makes the loop continue; the last format
carries no `%Y`, so its result's year is replaced by the current year
(`dt.replace(year=now.year)`, re-validated, a failure again caught by
the loop).  Falls through to `none` — never an exception. -/
def parse_when (nowYear : Nat) (s0 : List Char) : Option DateTime :=
  let s := stripWS s0
  match (fmtYmdHM s).bind checkValid with
  | some dt => some dt
  | none =>
    match (fmtYmd s).bind checkValid with
    | some dt => some dt
    | none =>
      match (fmtBdYHM s).bind checkValid with
      | some dt => some dt
      | none =>
        match (fmtBdHM s).bind checkValid with
        | some dt => checkValid { dt with year := nowYear }
        | none => none

/-! ## `slugify` -/

/-- The double separator `"--"` searched by `slugify`'s loop. -/
def ddL : List Char := "--".toList

/-- One pass of `s.replace("--", "-")`: left-to-right, non-overlapping. -/
def repDD : List Char → List Char
  | '-' :: '-' :: rest => '-' :: repDD rest
  | c :: rest => c :: repDD rest
  | [] => []

/-- `while "--" in s: s = s.replace("--", "-")`, fuelled by the string
length; each pass taken with `"--"` present shortens the string, so the
initial length bounds the passes and the fuelled loop is the `while`
loop (proved below as `collapseLoop_no_dd`). -/
def collapseLoop : Nat → List Char → List Char
  | 0, s => s
  | fuel + 1, s => if containsSub ddL s then collapseLoop fuel (repDD s) else s

/-- The fully collapsed string `slugify` computes after stripping. -/
def collapseDashes (s : List Char) : List Char :=
  collapseLoop s.length s

/-- `s.strip("-")`. -/
def stripDash (l : List Char) : List Char :=
  ((l.dropWhile (fun c => c == '-')).reverse.dropWhile (fun c => c == '-')).reverse

/-- The character-by-character normalization of `slugify`'s generator
expression: lowercase an alphanumeric character, anything else becomes
`'-'` (ASCII model of `str.isalnum` / `str.lower`). -/
def normCh (c : Char) : Char :=
  if c.isAlphanum then lowerCh c else '-'

/-- `slugify` (src lines 58–62): normalize each character, strip `-`
from both ends, collapse `--` runs, then truncate to 90 characters,
with `"article"` for an empty result. -/
def slugify (title : List Char) : List Char :=
  let s := stripDash (title.map normCh)
  let s := collapseDashes s
  if s.isEmpty then "article".toList else s.take 90

/-! ## Channels, the archive transition and the sweeper -/

/-- The slice of channel state the archive transition touches, plus the
topic the sweeper reads. -/
structure Channel where
  topic : Option (List Char)
  category : Nat
  overwrites : OverwriteMap
deriving DecidableEq, Repr

/-- The whole effect of `archive_channel` on a channel (src lines
287–317): move it to the Archived category and rewrite its overwrite
map. -/
def archiveTransition (editors : Option Nat) (defaultId archivedCat : Nat)
    (ch : Channel) : Channel :=
  { ch with category := archivedCat,
            overwrites := archiveOverwrites editors defaultId ch.overwrites }

/-- One tick of `sweeper` over the Active category's text channels (src
lines 341–369): re-archive (with the sweeper's own copy of the cleaning
loop) exactly the channels whose topic decodes to a deadline strictly
before `now` (`if dl and dl < now` — a decoded `datetime` is always
truthy); everything else is untouched. -/
def sweepTick (editors : Option Nat) (defaultId archivedCat : Nat)
    (now : DateTime) (chs : List Channel) : List Channel :=
  chs.map fun ch =>
    match extract_deadline_from_topic ch.topic with
    | some dl =>
      if dtLt dl now then
        { ch with category := archivedCat,
                  overwrites := sweepArchiveOverwrites editors defaultId ch.overwrites }
      else ch
    | none => ch

/-! ## Command handlers: mutations and outcomes -/

/-- The guild mutations a command can perform, in order. -/
inductive Mutation where
  | createCategory (name : List Char)
  | createChannel (name topic : List Char) (category : List Char) (ow : OverwriteMap)
  | editCategory (newCategory : List Char)
  | editOverwrites (ow : OverwriteMap)
deriving DecidableEq, Repr

/-- `ensure_categories` (src lines 96–103): create whichever of the two
categories is missing. -/
def ensureCategoriesMuts (activeName archivedName : List Char)
    (activeEx archivedEx : Bool) : List Mutation :=
  (if activeEx then [] else [.createCategory activeName]) ++
  (if archivedEx then [] else [.createCategory archivedName])

/-- Reply of the `/archive` handler. -/
inductive ArchiveOutcome where
  | errGuild
  | errNotText
  | ok
deriving DecidableEq, Repr

/-- Control flow of `archive_channel` (src lines 272–318): the
guild-missing check comes first, but `ensure_categories` runs *before*
the text-channel check, and the category move and overwrite rewrite
happen only after both checks pass. -/
def archiveCmd (guildPresent : Bool) (activeName archivedName : List Char)
    (activeEx archivedEx : Bool) (targetIsText : Bool)
    (editors : Option Nat) (defaultId : Nat) (target : Channel) :
    List Mutation × ArchiveOutcome :=
  if !guildPresent then ([], .errGuild)
  else
    let catMuts := ensureCategoriesMuts activeName archivedName activeEx archivedEx
    if !targetIsText then (catMuts, .errNotText)
    else
      (catMuts ++ [.editCategory archivedName,
                   .editOverwrites (archiveOverwrites editors defaultId target.overwrites)],
       .ok)

/-- Reply of the `/new_article` handler. -/
inductive NewArticleOutcome where
  | errGuild
  | errBadDeadline
  | errNotFound
  | ok (writers : List Nat)
deriving DecidableEq, Repr

/-- `str.split()`: split on whitespace runs, no empty tokens. -/
def splitWS (l : List Char) : List (List Char) :=
  ((l.splitOnP Char.isWhitespace).filter (fun t => !t.isEmpty))

/-- The writer-token filter of `new_article` (src lines 220–226): keep
the digits of every whitespace-separated token that starts with `<@`,
ends with `>`, and whose `strip("<@!>")` is all digits. -/
def parseWriterTokens (writers : Option (List Char)) : List Nat :=
  match writers with
  | none => []
  | some w =>
    (splitWS w).filterMap fun tok =>
      if ['<', '@'].isPrefixOf tok ∧ tok.getLast? = some '>' then
        let stripped := (((tok.dropWhile (fun c => c ∈ ['<', '@', '!', '>'])).reverse.dropWhile
          (fun c => c ∈ ['<', '@', '!', '>'])).reverse)
        if stripped ≠ [] ∧ stripped.all (fun c => c.isDigit) then
          some (stripped.foldl (fun n c => 10 * n + (c.toNat - 48)) 0)
        else none
      else none

/-- `set(user_ids)` as the deduplicated id list (set iteration order is
unspecified in Python; first-occurrence order is one admissible
order and no claim depends on the order). -/
def dedupFirstAux (seen : List Nat) : List Nat → List Nat
  | [] => []
  | x :: rest =>
    if x ∈ seen then dedupFirstAux seen rest
    else x :: dedupFirstAux (x :: seen) rest

/-- Entry point of the deduplication. -/
def dedupFirst (l : List Nat) : List Nat := dedupFirstAux [] l

/-- The writer-resolution loop of `new_article` (src lines 228–235):
`guild.get_member(uid) or await guild.fetch_member(uid)` — a cached
member resolves, an uncached existing member is fetched, and a
non-member makes `fetch_member` raise `NotFound`, which aborts the
whole handler (modelled as `none`). -/
def resolveWriters (cached isMember : Nat → Bool) : List Nat → Option (List Nat)
  | [] => some []
  | uid :: rest =>
    if cached uid || isMember uid then (resolveWriters cached isMember rest).map (uid :: ·)
    else none

/-- Control flow of `new_article` (src lines 192–261): guild check,
then deadline parse — both before any mutation — then
`ensure_categories`, writer resolution (whose `NotFound` is caught only
by the handler's generic `except`, after the categories were already
ensured), and finally the channel creation with the Active-state
overwrite map. -/
def newArticleCmd (guildPresent : Bool) (nowYear : Nat)
    (activeName archivedName : List Char) (activeEx archivedEx : Bool)
    (editors : Option Nat) (defaultId : Nat) (cached isMember : Nat → Bool)
    (title deadline : List Char) (writers : Option (List Char)) :
    List Mutation × NewArticleOutcome :=
  if !guildPresent then ([], .errGuild)
  else
    match parse_when nowYear deadline with
    | none => ([], .errBadDeadline)
    | some dt =>
      let catMuts := ensureCategoriesMuts activeName archivedName activeEx archivedEx
      let ids := dedupFirst (parseWriterTokens writers)
      match resolveWriters cached isMember ids with
      | none => (catMuts, .errNotFound)
      | some members =>
        let ow0 : OverwriteMap := [(.role defaultId, ⟨.deny, .inherit, .inherit, .inherit⟩)]
        let ow1 := match editors with
          | some e => setEntry ow0 (.role e) ⟨.allow, .allow, .allow, .allow⟩
          | none => ow0
        let ow2 := members.foldl
          (fun m uid => setEntry m (.member uid) ⟨.allow, .allow, .allow, .inherit⟩) ow1
        (catMuts ++ [.createChannel (slugify title) (encodeTopic title dt) activeName ow2],
         .ok members)

/-- ASCII uppercase test, used to state that `slugify` output is
lowercase. -/
def isUpperAscii (c : Char) : Bool := decide ('A' ≤ c ∧ c ≤ 'Z')

/-! ## Lemmas about the overwrite map operations -/

/-- Every value in an archived overwrite map is the cleaning of its
key. -/
lemma value_of_mem_archiveOverwrites {e : Option Nat} {d : Nat} {ow : OverwriteMap}
    {t : Target} {q : Overwrite} (h : (t, q) ∈ archiveOverwrites e d ow) :
    q = cleanEntry e t := by
  unfold archiveOverwrites at h
  rw [List.mem_map] at h
  obtain ⟨x, _, hx⟩ := h
  obtain ⟨h1, h2⟩ := Prod.mk.injEq .. ▸ hx
  rw [← h2, h1]

/-- `m[k] = v` leaves the pair `(k, v)` in the map. -/
lemma setEntry_mem_self (m : OverwriteMap) (k : Target) (v : Overwrite) :
    (k, v) ∈ setEntry m k v := by
  induction m with
  | nil => simp [setEntry]
  | cons hd tl ih =>
    obtain ⟨k', v'⟩ := hd
    simp only [setEntry]
    split
    · exact List.mem_cons_self _ _
    · exact List.mem_cons_of_mem _ ih

/-- `m[k] = v` keeps every key that was present. -/
lemma mem_setEntry_of_mem {m : OverwriteMap} {t : Target} {p : Overwrite}
    (k : Target) (v : Overwrite) (h : (t, p) ∈ m) :
    ∃ p', (t, p') ∈ setEntry m k v := by
  induction m with
  | nil => simp at h
  | cons hd tl ih =>
    obtain ⟨k', v'⟩ := hd
    simp only [setEntry]
    rcases List.mem_cons.mp h with heq | htl
    · obtain ⟨ht, _⟩ := Prod.mk.injEq .. ▸ heq
      split
      · next hk => exact ⟨v, by rw [ht, hk]; exact List.mem_cons_self _ _⟩
      · exact ⟨v', by rw [ht]; exact List.mem_cons_self _ _⟩
    · split
      · exact ⟨p, List.mem_cons_of_mem _ htl⟩
      · obtain ⟨p', hp'⟩ := ih htl
        exact ⟨p', List.mem_cons_of_mem _ hp'⟩

/-- Rebuilding a map from keys alone ignores a value update on a key
that is already present. -/
lemma map_key_setEntry (g : Target → Overwrite) (m : OverwriteMap)
    (k : Target) (v : Overwrite) (hk : ∃ p, (k, p) ∈ m) :
    (setEntry m k v).map (fun x => (x.1, g x.1)) = m.map (fun x => (x.1, g x.1)) := by
  induction m with
  | nil => simp at hk
  | cons hd tl ih =>
    obtain ⟨k', v'⟩ := hd
    simp only [setEntry]
    split
    · next hkk => simp [hkk]
    · next hkk =>
      simp only [List.map_cons, List.cons.injEq, true_and]
      apply ih
      obtain ⟨p, hp⟩ := hk
      rcases List.mem_cons.mp hp with heq | htl
      · obtain ⟨ht, _⟩ := Prod.mk.injEq .. ▸ heq
        exact absurd ht.symm hkk
      · exact ⟨p, htl⟩

/-- The sweeper's per-entry cleaning is the manual archive's
per-entry cleaning. -/
lemma sweepCleanEntry_eq (e : Option Nat) (t : Target) :
    sweepCleanEntry e t = cleanEntry e t := rfl

/-- The sweeper's overwrite computation is the manual archive's. -/
lemma sweepArchiveOverwrites_eq (e : Option Nat) (d : Nat) (ow : OverwriteMap) :
    sweepArchiveOverwrites e d ow = archiveOverwrites e d ow := rfl

/-- Applying the archived-state overwrite computation twice gives the
map of the single application. -/
lemma archiveOverwrites_idem (e : Option Nat) (d : Nat) (ow : OverwriteMap) :
    archiveOverwrites e d (archiveOverwrites e d ow) = archiveOverwrites e d ow := by
  unfold archiveOverwrites
  rw [map_key_setEntry]
  · rw [List.map_map]
    congr 1
  · refine ⟨cleanEntry e (.role d), ?_⟩
    exact List.mem_map_of_mem _ (setEntry_mem_self ..)

/-! ## Claim theorems: the archived-state permission invariant -/

/-- C1: for every overwrite map handed to the archive transition, the
resulting map has an explicit default-role entry with send deny, every
member entry and every non-Editors role entry has send deny, the
Editors-role entry (when the Editors role exists) has send allow, and
every entry present before the transition is still present with view
allow — and, for member and role entries (the default role included),
read-history allow.  The hypothesis records that the Editors role is
never the guild's `@everyone` role, which holds in Discord because the
Editors role is looked up by the name `"Editors"` while the default
role is named `"@everyone"`. -/
theorem archive_permission_invariant (e : Option Nat) (d : Nat) (ow : OverwriteMap)
    (hED : e ≠ some d) :
    (∃ p, (Target.role d, p) ∈ archiveOverwrites e d ow ∧
      p.send = .deny ∧ p.view = .allow ∧ p.readHistory = .allow) ∧
    (∀ i p, (Target.member i, p) ∈ archiveOverwrites e d ow → p.send = .deny) ∧
    (∀ i p, (Target.role i, p) ∈ archiveOverwrites e d ow → e ≠ some i → p.send = .deny) ∧
    (∀ i p, (Target.role i, p) ∈ archiveOverwrites e d ow → e = some i → p.send = .allow) ∧
    (∀ t p, (t, p) ∈ ow → ∃ q, (t, q) ∈ archiveOverwrites e d ow ∧ q.view = .allow ∧
      (∀ i, t = Target.member i ∨ t = Target.role i → q.readHistory = .allow)) := by
  refine ⟨?_, ?_, ?_, ?_, ?_⟩
  · refine ⟨cleanEntry e (.role d), List.mem_map_of_mem _ (setEntry_mem_self ..), ?_⟩
    cases e with
    | none => exact ⟨rfl, rfl, rfl⟩
    | some ed =>
      have hne : d ≠ ed := fun h => hED (by rw [h])
      simp [cleanEntry, hne]
  · intro i p hp
    rw [value_of_mem_archiveOverwrites hp]
    rfl
  · intro i p hp hne
    rw [value_of_mem_archiveOverwrites hp]
    cases e with
    | none => rfl
    | some ed =>
      have : i ≠ ed := fun h => hne (by rw [h])
      simp [cleanEntry, this]
  · intro i p hp heq
    rw [value_of_mem_archiveOverwrites hp, heq]
    simp [cleanEntry]
  · intro t p hp
    obtain ⟨p', hp'⟩ := mem_setEntry_of_mem (Target.role d) ⟨.allow, .deny, .allow, .inherit⟩ hp
    refine ⟨cleanEntry e t, ?_, ?_, ?_⟩
    · have : ((t, p').1, cleanEntry e (t, p').1) ∈ archiveOverwrites e d ow :=
        List.mem_map_of_mem _ hp'
      exact this
    · cases t with
      | role i =>
        cases e with
        | none => rfl
        | some ed =>
          by_cases hie : i = ed <;> simp [cleanEntry, hie]
      | member i => rfl
      | other i => rfl
    · intro i hti
      rcases hti with h | h <;> subst h
      · rfl
      · cases e with
        | none => rfl
        | some ed =>
          by_cases hie : i = ed <;> simp [cleanEntry, hie]

/-- C1 witness: the invariant instantiated on a concrete map holding a
default-role entry, a writer member, an Editors role and a stray
non-role non-member key. -/
theorem archive_permission_invariant_witness :
    (some 5 : Option Nat) ≠ some 1 ∧
    (∀ i p, (Target.member i, p) ∈
      archiveOverwrites (some 5) 1
        [(Target.role 1, ⟨.deny, .inherit, .inherit, .inherit⟩),
         (Target.role 5, ⟨.allow, .allow, .allow, .allow⟩),
         (Target.member 7, ⟨.allow, .allow, .allow, .inherit⟩),
         (Target.other 9, ⟨.allow, .allow, .inherit, .inherit⟩)] → p.send = .deny) := by
  refine ⟨by decide, ?_⟩
  exact (archive_permission_invariant (some 5) 1
    [(Target.role 1, ⟨.deny, .inherit, .inherit, .inherit⟩),
     (Target.role 5, ⟨.allow, .allow, .allow, .allow⟩),
     (Target.member 7, ⟨.allow, .allow, .allow, .inherit⟩),
     (Target.other 9, ⟨.allow, .allow, .inherit, .inherit⟩)] (by decide)).2.1

/-- C4: the archive transition is idempotent — re-running it on an
already archived channel reproduces the same overwrite map and the
same category. -/
theorem archive_idempotent (e : Option Nat) (d archivedCat : Nat) (ch : Channel) :
    archiveTransition e d archivedCat (archiveTransition e d archivedCat ch) =
      archiveTransition e d archivedCat ch := by
  unfold archiveTransition
  simp [archiveOverwrites_idem]

/-- C10: the Archived-state overwrite map computed by the sweeper's
copy of the cleaning loop coincides with the `/archive` command's, for
every overwrite map, default role and (present or absent) Editors
role. -/
theorem sweep_archive_refines_manual (e : Option Nat) (d : Nat) (ow : OverwriteMap) :
    sweepArchiveOverwrites e d ow = archiveOverwrites e d ow :=
  sweepArchiveOverwrites_eq e d ow

/-- C3: one sweeper tick maps each Active channel to its manual-archive
transition exactly when its topic decodes to a deadline strictly
earlier than `now`, and leaves every other channel (no decodable
deadline, or deadline not in the past) untouched; no channel is added
or dropped. -/
theorem sweep_tick_archives_exactly_due (e : Option Nat) (d ac : Nat)
    (now : DateTime) (chs : List Channel) :
    (sweepTick e d ac now chs).length = chs.length ∧
    ∀ i : Nat, (sweepTick e d ac now chs)[i]? = (chs[i]?).map (fun ch =>
      match extract_deadline_from_topic ch.topic with
      | some dl => if dtLt dl now then archiveTransition e d ac ch else ch
      | none => ch) := by
  constructor
  · exact List.length_map ..
  · intro i
    unfold sweepTick
    rw [List.getElem?_map]
    rcases h : chs[i]? with _ | ch
    · rfl
    · simp only [Option.map_some']
      cases hd : extract_deadline_from_topic ch.topic with
      | none => rfl
      | some dl =>
        simp only
        rcases hlt : dtLt dl now with _ | _
        · simp
        · simp [archiveTransition, sweepArchiveOverwrites_eq]

/-! ## Claim theorems: `parse_when` -/

/-- C6: `parse_when` tries its formats in order and substitutes the
current year when the matched format has no `%Y` — concretely,
`"2025-09-07 23:00"` parses to 2025-09-07T23:00, `"2025-09-07"` to
midnight of that day, `"Sep 7 23:00"` to 23:00 of September 7 of the
current year, and `"not a date"` to `none`; the function is total, so
an unmatched input is reported as `none`, never an exception.  The
hypotheses record that the current year of a running system is within
`datetime`'s representable range. -/
theorem parse_when_examples (Y : Nat) (h1 : 1 ≤ Y) (h2 : Y ≤ 9999) :
    parse_when Y "2025-09-07 23:00".toList = some ⟨2025, 9, 7, 23, 0, 0⟩ ∧
    parse_when Y "2025-09-07".toList = some ⟨2025, 9, 7, 0, 0, 0⟩ ∧
    parse_when Y "Sep 7 23:00".toList = some ⟨Y, 9, 7, 23, 0, 0⟩ ∧
    parse_when Y "not a date".toList = none := by
  refine ⟨rfl, rfl, ?_, rfl⟩
  show checkValid ⟨Y, 9, 7, 23, 0, 0⟩ = some ⟨Y, 9, 7, 23, 0, 0⟩
  unfold checkValid isValidDT
  simp [daysInMonth, h1, h2]

/-- C6 witness: the examples at the concrete current year 2026. -/
theorem parse_when_examples_witness :
    1 ≤ 2026 ∧ 2026 ≤ 9999 ∧
    parse_when 2026 "Sep 7 23:00".toList = some ⟨2026, 9, 7, 23, 0, 0⟩ :=
  ⟨by decide, by decide,
   (parse_when_examples 2026 (by decide) (by decide)).2.2.1⟩

/-! ## Claim theorems: decode failure modes -/

/-- C9: `extract_deadline_from_topic` returns `none` — catching every
internal exception — for a missing or empty topic, a topic without the
opening tag, a topic whose first tag occurrence is followed by no `]`,
and a topic whose substring between tag and bracket is not parsable as
a timestamp. -/
theorem decode_failure_modes (t : List Char) :
    extract_deadline_from_topic none = none ∧
    extract_deadline_from_topic (some []) = none ∧
    (containsSub tagL t = false → extract_deadline_from_topic (some t) = none) ∧
    (∀ b a, splitAtTag t = some (b, a) → a.contains ']' = false →
      extract_deadline_from_topic (some t) = none) ∧
    (∀ b a, splitAtTag t = some (b, a) →
      fromIso (a.takeWhile (fun c => c != ']')) = none →
      extract_deadline_from_topic (some t) = none) := by
  refine ⟨rfl, rfl, ?_, ?_, ?_⟩
  · intro h
    simp [extract_deadline_from_topic, h]
  · intro b a hsplit hnb
    show (if (t.isEmpty || !containsSub tagL t) = true then none
      else match splitAtTag t with
      | none => none
      | some (_, after) =>
        if after.contains ']' = true then fromIso (List.takeWhile (fun c => c != ']') after)
        else none) = (none : Option DateTime)
    split
    · rfl
    · rw [hsplit]
      show (if a.contains ']' = true then fromIso (List.takeWhile (fun c => c != ']') a)
        else none) = (none : Option DateTime)
      rw [if_neg (by rw [hnb]; exact Bool.false_ne_true)]
  · intro b a hsplit hiso
    show (if (t.isEmpty || !containsSub tagL t) = true then none
      else match splitAtTag t with
      | none => none
      | some (_, after) =>
        if after.contains ']' = true then fromIso (List.takeWhile (fun c => c != ']') after)
        else none) = (none : Option DateTime)
    split
    · rfl
    · rw [hsplit]
      show (if a.contains ']' = true then fromIso (List.takeWhile (fun c => c != ']') a)
        else none) = (none : Option DateTime)
      split
      · exact hiso
      · rfl

/-- C9 witness: the four failure modes on concrete topics. -/
theorem decode_failure_modes_witness :
    extract_deadline_from_topic (some "no deadline here".toList) = none ∧
    extract_deadline_from_topic (some "x [deadline: 2020".toList) = none ∧
    extract_deadline_from_topic (some "x [deadline: oops]".toList) = none :=
  ⟨(decode_failure_modes "no deadline here".toList).2.2.1 (by decide),
   (decode_failure_modes "x [deadline: 2020".toList).2.2.2.1
     "x ".toList "2020".toList (by decide) (by decide),
   (decode_failure_modes "x [deadline: oops]".toList).2.2.2.2
     "x ".toList "oops]".toList (by decide) (by decide)⟩

/-! ## Lemmas for the encode/decode round trip -/

/-- Unfolding equation of `containsSub` on a cons. -/
lemma containsSub_cons (pat : List Char) (c : Char) (rest : List Char) :
    containsSub pat (c :: rest) = (pat.isPrefixOf (c :: rest) || containsSub pat rest) := rfl

/-- A pattern occurs in any string it is planted into. -/
lemma containsSub_append_self (P r : List Char) :
    containsSub tagL (P ++ (tagL ++ r)) = true := by
  induction P with
  | nil =>
    show containsSub tagL ('[' :: ("deadline: ".toList ++ r)) = true
    rw [containsSub_cons]
    have : tagL.isPrefixOf ('[' :: ("deadline: ".toList ++ r)) = true := by
      rw [List.isPrefixOf_iff_prefix]
      exact List.prefix_append tagL r
    rw [this, Bool.true_or]
  | cons x P' ih =>
    rw [List.cons_append, containsSub_cons, ih, Bool.or_true]

/-- The only `'['` in the tag is its head. -/
lemma tagL_bracket_only_head (m : Nat) (h : tagL[m]? = some '[') : m = 0 := by
  match m with
  | 0 => rfl
  | m + 1 =>
    have hm : m + 1 < tagL.length := (List.getElem?_eq_some.mp h).1
    have hm' : m < 10 := by
      have : tagL.length = 11 := rfl
      omega
    interval_cases m <;> exact absurd h (by decide)

/-- `topic.index(DEADLINE_TAG)` finds the planted tag when no earlier
occurrence starts inside the prefix `P` — which `containsSub tagL P =
false` rules out: an occurrence contained in `P` directly, and a
straddling occurrence because it would need a second `'['` inside the
tag. -/
lemma splitAtTag_planted (P r : List Char) (h : containsSub tagL P = false) :
    splitAtTag (P ++ (tagL ++ r)) = some (P, r) := by
  induction P with
  | nil =>
    show splitAtTag ('[' :: ("deadline: ".toList ++ r)) = some ([], r)
    rw [splitAtTag]
    rw [if_pos]
    · have hdrop : (tagL ++ r).drop tagL.length = r := List.drop_left tagL r
      exact congrArg some (congrArg (Prod.mk []) hdrop)
    · rw [List.isPrefixOf_iff_prefix]
      exact List.prefix_append tagL r
  | cons x P' ih =>
    rw [containsSub_cons, Bool.or_eq_false_iff] at h
    obtain ⟨hpre, hrest⟩ := h
    rw [List.cons_append, splitAtTag]
    rw [if_neg, ih hrest]
    intro htr
    have hpref : tagL <+: (x :: P') ++ (tagL ++ r) := by
      rw [← List.isPrefixOf_iff_prefix]
      exact htr
    by_cases hlen : tagL.length ≤ (x :: P').length
    · have hq : tagL <+: x :: P' :=
        List.prefix_of_prefix_length_le hpref (List.prefix_append _ _) hlen
      rw [← List.isPrefixOf_iff_prefix, hpre] at hq
      exact Bool.false_ne_true hq
    · push_neg at hlen
      obtain ⟨tl, htl⟩ := hpref
      have hA : ((x :: P') ++ (tagL ++ r))[(x :: P').length]? = tagL[(x :: P').length]? := by
        rw [← htl, List.getElem?_append_left hlen]
      have hB : ((x :: P') ++ (tagL ++ r))[(x :: P').length]? = some '[' := by
        rw [List.getElem?_append_right (Nat.le_refl _), Nat.sub_self]
        rfl
      have h4 : tagL[(x :: P').length]? = some '[' := by rw [← hA, hB]
      have := tagL_bracket_only_head _ h4
      simp at this

/-- `parseDigit` inverts `digitChar` on digit values. -/
lemma parseDigit_digitChar (n : Nat) (h : n < 10) : parseDigit (digitChar n) = some n := by
  interval_cases n <;> decide

/-- A rendered digit is never the closing bracket. -/
lemma digitChar_mod_ne_rbracket (n : Nat) : (digitChar (n % 10) != ']') = true := by
  have h : n % 10 < 10 := Nat.mod_lt _ (by omega)
  set k := n % 10 with hk
  interval_cases k <;> decide

/-- Two-digit parse of a two-digit render. -/
lemma isoParse2_pad2 (n : Nat) (r : List Char) (h : n < 100) :
    isoParse2 (pad2 n ++ r) = some (n, r) := by
  show isoParse2 (digitChar (n / 10 % 10) :: digitChar (n % 10) :: r) = some (n, r)
  rw [isoParse2]
  rw [parseDigit_digitChar _ (Nat.mod_lt _ (by omega)),
      parseDigit_digitChar _ (Nat.mod_lt _ (by omega))]
  show some (10 * (n / 10 % 10) + n % 10, r) = some (n, r)
  have : 10 * (n / 10 % 10) + n % 10 = n := by omega
  rw [this]

/-- Four-digit parse of a four-digit render. -/
lemma isoParse4_pad4 (n : Nat) (r : List Char) (h : n < 10000) :
    isoParse4 (pad4 n ++ r) = some (n, r) := by
  show isoParse4 (digitChar (n / 1000 % 10) :: digitChar (n / 100 % 10) ::
    digitChar (n / 10 % 10) :: digitChar (n % 10) :: r) = some (n, r)
  rw [isoParse4]
  rw [parseDigit_digitChar _ (Nat.mod_lt _ (by omega)),
      parseDigit_digitChar _ (Nat.mod_lt _ (by omega)),
      parseDigit_digitChar _ (Nat.mod_lt _ (by omega)),
      parseDigit_digitChar _ (Nat.mod_lt _ (by omega))]
  show some (1000 * (n / 1000 % 10) + 100 * (n / 100 % 10) + 10 * (n / 10 % 10) + n % 10, r) =
    some (n, r)
  have : 1000 * (n / 1000 % 10) + 100 * (n / 100 % 10) + 10 * (n / 10 % 10) + n % 10 = n := by
    omega
  rw [this]

/-- No month is longer than 31 days. -/
lemma daysInMonth_le31 (y m : Nat) : daysInMonth y m ≤ 31 := by
  unfold daysInMonth
  split
  · split <;> omega
  · split <;> omega

/-- `fromisoformat` inverts `isoformat` on every valid datetime. -/
lemma fromIso_isoChars (T : DateTime) (h : isValidDT T = true) :
    fromIso (isoChars T) = some T := by
  obtain ⟨y, mo, d, hh, mi, s⟩ := T
  have hv := h
  simp only [isValidDT, Bool.and_eq_true, decide_eq_true_eq] at hv
  obtain ⟨⟨⟨⟨⟨⟨⟨⟨h1, h2⟩, h3⟩, h4⟩, h5⟩, h6⟩, h7⟩, h8⟩, h9⟩ := hv
  have hd : d ≤ 31 := Nat.le_trans h6 (daysInMonth_le31 y mo)
  have e : isoChars ⟨y, mo, d, hh, mi, s⟩ =
      pad4 y ++ ('-' :: (pad2 mo ++ ('-' :: (pad2 d ++
        ('T' :: (pad2 hh ++ (':' :: (pad2 mi ++ (':' :: pad2 s))))))))) := rfl
  have plast : isoParse2 (pad2 s) = some (s, []) := by
    have hp := isoParse2_pad2 s [] (by omega)
    rwa [List.append_nil] at hp
  rw [e]
  unfold fromIso
  rw [isoParse4_pad4 y ('-' :: (pad2 mo ++ ('-' :: (pad2 d ++
    ('T' :: (pad2 hh ++ (':' :: (pad2 mi ++ (':' :: pad2 s))))))))) (by omega)]
  simp only [isoParse2_pad2 mo ('-' :: (pad2 d ++
      ('T' :: (pad2 hh ++ (':' :: (pad2 mi ++ (':' :: pad2 s))))))) (by omega),
    isoParse2_pad2 d ('T' :: (pad2 hh ++ (':' :: (pad2 mi ++ (':' :: pad2 s))))) (by omega),
    isoParse2_pad2 hh (':' :: (pad2 mi ++ (':' :: pad2 s))) (by omega),
    isoParse2_pad2 mi (':' :: pad2 s) (by omega),
    plast]
  simp [checkValid, h]

/-- No ISO-rendered character is the closing bracket. -/
lemma isoChars_ne_rbracket (T : DateTime) : ∀ c ∈ isoChars T, (c != ']') = true := by
  obtain ⟨y, mo, d, hh, mi, s⟩ := T
  intro c hc
  simp only [isoChars, pad4, pad2, List.cons_append, List.nil_append, List.mem_cons,
    List.mem_append, List.not_mem_nil, or_false] at hc
  rcases hc with h|h|h|h|h|h|h|h|h|h|h|h|h|h|h|h|h|h|h <;> subst h <;>
    first
    | exact digitChar_mod_ne_rbracket _
    | decide

/-- `takeWhile` up to a planted closing bracket returns the prefix. -/
lemma takeWhile_until_rbracket (l1 l2 : List Char) (h : ∀ c ∈ l1, (c != ']') = true) :
    (l1 ++ ']' :: l2).takeWhile (fun c => c != ']') = l1 := by
  induction l1 with
  | nil => simp [List.takeWhile]
  | cons x rest ih =>
    rw [List.cons_append, List.takeWhile_cons]
    rw [h x (List.mem_cons_self ..)]
    rw [ih (fun c hcm => h c (List.mem_cons_of_mem _ hcm))]
    simp

/-- A planted closing bracket is found by `contains`. -/
lemma contains_planted_rbracket (l1 l2 : List Char) :
    (l1 ++ ']' :: l2).contains ']' = true := by
  simp

/-! ## Claim theorems: the encode/decode round trip -/

/-- C2 counterexample: the round trip fails for a title that itself
contains the opening tag — decoding the encoded topic for the title
`"[deadline: ]"` finds the tag inside the title, takes the empty
substring before the title's own bracket, fails to parse it, and
returns `none` instead of the valid encoded timestamp. -/
theorem roundtrip_fails_for_tagged_title :
    isValidDT ⟨2025, 9, 7, 23, 0, 0⟩ = true ∧
    extract_deadline_from_topic
      (some (encodeTopic "[deadline: ]".toList ⟨2025, 9, 7, 23, 0, 0⟩)) ≠
      some ⟨2025, 9, 7, 23, 0, 0⟩ := by
  decide

/-- C2 (amended): for every valid timestamp `T` and every title `S`
such that the opening tag does not occur in the encoded topic before
the tag written by `encode` (i.e. not in `"Article: {S} | "`),
decoding the encoded topic returns exactly `T`. -/
theorem encode_decode_roundtrip (S : List Char) (T : DateTime)
    (hT : isValidDT T = true)
    (hS : containsSub tagL (articlePrefix S) = false) :
    extract_deadline_from_topic (some (encodeTopic S T)) = some T := by
  have hre : encodeTopic S T = articlePrefix S ++ (tagL ++ (isoChars T ++ [']'])) := by
    unfold encodeTopic
    simp [List.append_assoc]
  have hne : (encodeTopic S T).isEmpty = false := by
    unfold encodeTopic articlePrefix
    show ((('A' :: "rticle: ".toList ++ S) ++ " | ".toList) ++ tagL ++ isoChars T ++
      [']']).isEmpty = false
    simp
  have hcontains : containsSub tagL (encodeTopic S T) = true := by
    rw [hre]
    exact containsSub_append_self _ _
  have hsplit : splitAtTag (encodeTopic S T) = some (articlePrefix S, isoChars T ++ [']']) := by
    rw [hre]
    exact splitAtTag_planted _ _ hS
  have htake : (isoChars T ++ ']' :: []).takeWhile (fun c => c != ']') = isoChars T :=
    takeWhile_until_rbracket _ _ (isoChars_ne_rbracket T)
  show (if ((encodeTopic S T).isEmpty || !containsSub tagL (encodeTopic S T)) = true then none
    else match splitAtTag (encodeTopic S T) with
    | none => none
    | some (_, after) =>
      if after.contains ']' = true then fromIso (List.takeWhile (fun c => c != ']') after)
      else none) = some T
  rw [if_neg (by rw [hne, hcontains]; decide)]
  rw [hsplit]
  show (if (isoChars T ++ [']']).contains ']' = true
    then fromIso (List.takeWhile (fun c => c != ']') (isoChars T ++ [']'])) else none) = some T
  rw [if_pos (contains_planted_rbracket (isoChars T) [])]
  show fromIso (List.takeWhile (fun c => c != ']') (isoChars T ++ ']' :: [])) = some T
  rw [htake]
  exact fromIso_isoChars T hT

/-- C2 witness: the amended round trip on a concrete tag-free title and
timestamp. -/
theorem encode_decode_roundtrip_witness :
    isValidDT ⟨2025, 9, 7, 23, 0, 0⟩ = true ∧
    containsSub tagL (articlePrefix "Budget Review".toList) = false ∧
    extract_deadline_from_topic
      (some (encodeTopic "Budget Review".toList ⟨2025, 9, 7, 23, 0, 0⟩)) =
      some ⟨2025, 9, 7, 23, 0, 0⟩ :=
  ⟨by decide, by decide,
   encode_decode_roundtrip "Budget Review".toList ⟨2025, 9, 7, 23, 0, 0⟩
     (by decide) (by decide)⟩

/-! ## Lemmas about `slugify` -/

/-- Lowercasing never yields an ASCII uppercase letter. -/
lemma isUpperAscii_lowerCh (c : Char) : isUpperAscii (lowerCh c) = false := by
  unfold lowerCh
  split
  · next h =>
    obtain ⟨h1, h2⟩ := h
    have hn1 : 65 ≤ c.toNat := h1
    have hn2 : c.toNat ≤ 90 := h2
    have hv : (c.toNat + 32).isValidChar := Or.inl (by omega)
    have ht : (Char.ofNat (c.toNat + 32)).toNat = c.toNat + 32 := by
      rw [Char.ofNat, dif_pos hv]
      rfl
    simp only [isUpperAscii, decide_eq_false_iff_not]
    intro hcon
    obtain ⟨ha, hb⟩ := hcon
    have ha' : 65 ≤ (Char.ofNat (c.toNat + 32)).toNat := ha
    have hb' : (Char.ofNat (c.toNat + 32)).toNat ≤ 90 := hb
    rw [ht] at ha' hb'
    omega
  · next h =>
    simp only [isUpperAscii, decide_eq_false_iff_not]
    exact h

/-- Normalized characters are never ASCII uppercase. -/
lemma isUpperAscii_normCh (c : Char) : isUpperAscii (normCh c) = false := by
  unfold normCh
  split
  · exact isUpperAscii_lowerCh c
  · decide

/-- One replace pass cannot grow the string. -/
lemma repDD_length_le (s : List Char) : (repDD s).length ≤ s.length := by
  induction s using repDD.induct with
  | case1 rest ih =>
    rw [repDD.eq_1]
    simp only [List.length_cons]
    omega
  | case2 c rest h ih =>
    rw [repDD.eq_2 c rest h]
    simp only [List.length_cons]
    omega
  | case3 => rw [repDD.eq_3]

/-- A replace pass taken with `"--"` present strictly shrinks the
string. -/
lemma repDD_length_lt (s : List Char) (hdd : containsSub ddL s = true) :
    (repDD s).length < s.length := by
  induction s using repDD.induct with
  | case1 rest ih =>
    rw [repDD.eq_1]
    have := repDD_length_le rest
    simp only [List.length_cons]
    omega
  | case2 c rest h ih =>
    rcases rest with _ | ⟨c2, rest'⟩
    · exact absurd hdd (by simp [containsSub, ddL, List.isPrefixOf])
    · have hdd' : containsSub ddL (c2 :: rest') = true := by
        rw [containsSub_cons] at hdd
        rcases Bool.or_eq_true_iff.mp hdd with hpre | hco
        · exfalso
          have : c = '-' ∧ c2 = '-' := by
            have := List.isPrefixOf_iff_prefix.mp hpre
            rw [show ddL = '-' :: '-' :: [] from rfl] at this
            obtain ⟨he1, ht⟩ := List.cons_prefix_cons.mp this
            obtain ⟨he2, _⟩ := List.cons_prefix_cons.mp ht
            exact ⟨he1.symm, he2.symm⟩
          exact h rest' this.1 (by rw [this.2])
        · exact hco
      rw [repDD.eq_2 c _ h]
      have := ih hdd'
      simp only [List.length_cons] at this ⊢
      omega
  | case3 => simp [containsSub, ddL, List.isPrefixOf] at hdd

/-- Fuelled by at least the string length, the replace loop terminates
with no `"--"` left — so the fuelled loop is Python's `while` loop. -/
lemma collapseLoop_no_dd (fuel : Nat) :
    ∀ s : List Char, s.length ≤ fuel → containsSub ddL (collapseLoop fuel s) = false := by
  induction fuel with
  | zero =>
    intro s hs
    have : s = [] := List.eq_nil_of_length_eq_zero (by omega)
    subst this
    decide
  | succ fuel ih =>
    intro s hs
    rw [collapseLoop]
    split
    · next h =>
      apply ih
      have := repDD_length_lt s h
      omega
    · next h => simpa using h

/-- A replace pass of a nonempty string is nonempty. -/
lemma repDD_ne_nil (s : List Char) (h : s ≠ []) : repDD s ≠ [] := by
  induction s using repDD.induct with
  | case1 rest ih => rw [repDD.eq_1]; simp
  | case2 c rest h2 ih => rw [repDD.eq_2 c rest h2]; simp
  | case3 => exact absurd rfl h

/-- A replace pass keeps a non-separator head. -/
lemma repDD_head (s : List Char) (h : s.head? ≠ some '-') :
    (repDD s).head? = s.head? := by
  rcases s with _ | ⟨c, rest⟩
  · rfl
  · have hc : c ≠ '-' := by
      intro he
      exact h (by rw [he]; rfl)
    rw [repDD.eq_2 c rest (fun r1 he _ => hc he)]
    rfl

/-- The replace loop keeps a non-separator head. -/
lemma collapseLoop_head (fuel : Nat) :
    ∀ s : List Char, s.head? ≠ some '-' → (collapseLoop fuel s).head? ≠ some '-' := by
  induction fuel with
  | zero => intro s h; exact h
  | succ fuel ih =>
    intro s h
    rw [collapseLoop]
    split
    · exact ih (repDD s) (by rw [repDD_head s h]; exact h)
    · exact h

/-- A replace pass keeps a non-separator last character. -/
lemma repDD_getLast (s : List Char) (h : s.getLast? ≠ some '-') :
    (repDD s).getLast? = s.getLast? := by
  induction s using repDD.induct with
  | case1 rest ih =>
    rcases rest with _ | ⟨r0, rt⟩
    · exact absurd (by decide) h
    · have hr : (r0 :: rt).getLast? ≠ some '-' := by
        rwa [List.getLast?_cons_cons, List.getLast?_cons_cons] at h
      obtain ⟨z, zs, hz⟩ := List.exists_cons_of_ne_nil (repDD_ne_nil (r0 :: rt) (by simp))
      rw [repDD.eq_1, hz, List.getLast?_cons_cons, ← hz, ih hr,
        List.getLast?_cons_cons, List.getLast?_cons_cons]
  | case2 c rest h2 ih =>
    rcases rest with _ | ⟨r0, rt⟩
    · rw [repDD.eq_2 c [] h2, repDD.eq_3]
    · have hr : (r0 :: rt).getLast? ≠ some '-' := by
        rwa [List.getLast?_cons_cons] at h
      obtain ⟨z, zs, hz⟩ := List.exists_cons_of_ne_nil (repDD_ne_nil (r0 :: rt) (by simp))
      rw [repDD.eq_2 c _ h2, hz, List.getLast?_cons_cons, ← hz, ih hr,
        List.getLast?_cons_cons]
  | case3 => rfl

/-- The replace loop keeps a non-separator last character. -/
lemma collapseLoop_getLast (fuel : Nat) :
    ∀ s : List Char, s.getLast? ≠ some '-' → (collapseLoop fuel s).getLast? = s.getLast? := by
  induction fuel with
  | zero => intro s h; rfl
  | succ fuel ih =>
    intro s h
    rw [collapseLoop]
    split
    · rw [ih (repDD s) (by rw [repDD_getLast s h]; exact h), repDD_getLast s h]
    · rfl

/-- A replace pass only outputs separators or input characters. -/
lemma repDD_all (Q : Char → Prop) (hdash : Q '-') :
    ∀ s : List Char, (∀ c ∈ s, Q c) → ∀ c ∈ repDD s, Q c := by
  intro s
  induction s using repDD.induct with
  | case1 rest ih =>
    intro hs c hc
    rw [repDD.eq_1] at hc
    rcases List.mem_cons.mp hc with he | hm
    · rw [he]; exact hdash
    · exact ih (fun x hx => hs x (List.mem_cons_of_mem _ (List.mem_cons_of_mem _ hx))) c hm
  | case2 x rest h2 ih =>
    intro hs c hc
    rw [repDD.eq_2 x rest h2] at hc
    rcases List.mem_cons.mp hc with he | hm
    · rw [he]; exact hs x (List.mem_cons_self ..)
    · exact ih (fun y hy => hs y (List.mem_cons_of_mem _ hy)) c hm
  | case3 =>
    intro _ c hc
    simp [repDD.eq_3] at hc

/-- The replace loop only outputs separators or input characters. -/
lemma collapseLoop_all (Q : Char → Prop) (hdash : Q '-') (fuel : Nat) :
    ∀ s : List Char, (∀ c ∈ s, Q c) → ∀ c ∈ collapseLoop fuel s, Q c := by
  induction fuel with
  | zero => intro s hs; exact hs
  | succ fuel ih =>
    intro s hs
    rw [collapseLoop]
    split
    · exact ih (repDD s) (repDD_all Q hdash s hs)
    · exact hs

/-- The head surviving `dropWhile` fails the predicate. -/
lemma dropWhile_head_false (p : Char → Bool) (l : List Char) :
    ∀ c, (l.dropWhile p).head? = some c → p c = false := by
  induction l with
  | nil => intro c hc; simp [List.dropWhile] at hc
  | cons x rest ih =>
    intro c hc
    rw [List.dropWhile_cons] at hc
    split at hc
    · exact ih c hc
    · next h =>
      have : x = c := by simpa using hc
      rw [← this]
      simpa using h

/-- Characters of the stripped string come from the input. -/
lemma mem_stripDash (l : List Char) : ∀ c ∈ stripDash l, c ∈ l := by
  intro c hc
  unfold stripDash at hc
  rw [List.mem_reverse] at hc
  have h1 := (List.dropWhile_sublist (l := (l.dropWhile (fun c => c == '-')).reverse)
    (fun c => c == '-')).subset hc
  rw [List.mem_reverse] at h1
  exact (List.dropWhile_sublist (fun c => c == '-')).subset h1

/-- The stripped string never starts with a separator. -/
lemma stripDash_head (l : List Char) : (stripDash l).head? ≠ some '-' := by
  intro hc
  unfold stripDash at hc
  rw [List.head?_reverse] at hc
  rcases hne : (l.dropWhile (fun c => c == '-')).reverse.dropWhile (fun c => c == '-') with
    _ | ⟨z, zs⟩
  · rw [hne] at hc
    simp at hc
  · rw [hne] at hc
    have hsuf : List.IsSuffix (z :: zs) (l.dropWhile (fun c => c == '-')).reverse := by
      rw [← hne]
      exact List.dropWhile_suffix _
    obtain ⟨t, ht⟩ := hsuf
    have : (z :: zs).getLast? = (l.dropWhile (fun c => c == '-')).reverse.getLast? := by
      rw [← ht]
      exact (List.getLast?_append_of_ne_nil t (by simp)).symm
    rw [this, List.getLast?_reverse] at hc
    have := dropWhile_head_false (fun c => c == '-') l '-' hc
    simp at this

/-- The stripped string never ends with a separator. -/
lemma stripDash_getLast (l : List Char) : (stripDash l).getLast? ≠ some '-' := by
  intro hc
  unfold stripDash at hc
  rw [List.getLast?_reverse] at hc
  have := dropWhile_head_false (fun c => c == '-')
    (l.dropWhile (fun c => c == '-')).reverse '-' hc
  simp at this

/-- A substring occurrence in a prefix is an occurrence in the whole
string. -/
lemma containsSub_prefix_mono (pat : List Char) :
    ∀ l2 l1 : List Char, l1 <+: l2 → containsSub pat l1 = true → containsSub pat l2 = true := by
  intro l2
  induction l2 with
  | nil =>
    intro l1 hp h
    rw [List.prefix_nil.mp hp] at h
    exact h
  | cons x rest ih =>
    intro l1 hp h
    rcases l1 with _ | ⟨y, t⟩
    · rcases pat with _ | ⟨p0, ps⟩
      · rfl
      · exact absurd h (by simp [containsSub, List.isPrefixOf])
    · obtain ⟨he, ht⟩ := List.cons_prefix_cons.mp hp
      subst he
      rw [containsSub_cons] at h ⊢
      rcases Bool.or_eq_true_iff.mp h with hpre | hco
      · have h1 : pat <+: y :: t := List.isPrefixOf_iff_prefix.mp hpre
        have h2 : pat <+: y :: rest := h1.trans ((List.cons_prefix_cons).mpr ⟨rfl, ht⟩)
        rw [(List.isPrefixOf_iff_prefix).mpr h2, Bool.true_or]
      · rw [ih t ht hco, Bool.or_true]

/-- Truncation does not change a nonzero-length head. -/
lemma head?_take (n : Nat) (hn : n ≠ 0) (l : List Char) : (l.take n).head? = l.head? := by
  rcases l with _ | ⟨c, t⟩
  · simp
  · rcases n with _ | n
    · exact absurd rfl hn
    · rw [List.take_succ_cons]
      rfl

/-! ## Claim theorems: `slugify` -/

/-- C5 counterexample: the 90-character truncation can expose a
trailing separator — for the 120-character title `"a.a.…a."` the
stripped, collapsed slug alternates `a-a-…` with odd length, and its
90-character prefix ends in `'-'`, contradicting the claimed
no-trailing-separator property. -/
theorem slugify_truncation_exposes_separator :
    (slugify ((List.replicate 60 ['a', '.']).flatten)).getLast? = some '-' := by
  decide

/-- C5 (amended): `slugify` output has no ASCII uppercase letter, no
`"--"` substring, no leading separator, length at most 90, and is
exactly `"article"` when the stripped normalization of the title is
empty; it has no trailing separator provided the collapsed string is
at most 90 characters long (truncation at 90 can expose one). -/
theorem slugify_normal_form (title : List Char) :
    (∀ c ∈ slugify title, isUpperAscii c = false) ∧
    containsSub ddL (slugify title) = false ∧
    (slugify title).head? ≠ some '-' ∧
    (slugify title).length ≤ 90 ∧
    (stripDash (title.map normCh) = [] → slugify title = "article".toList) ∧
    ((collapseDashes (stripDash (title.map normCh))).length ≤ 90 →
      (slugify title).getLast? ≠ some '-') := by
  have hslug : slugify title =
      if (collapseDashes (stripDash (title.map normCh))).isEmpty then "article".toList
      else (collapseDashes (stripDash (title.map normCh))).take 90 := rfl
  have hall : ∀ c ∈ collapseDashes (stripDash (title.map normCh)), isUpperAscii c = false := by
    apply collapseLoop_all (fun c => isUpperAscii c = false) (by decide)
    intro x hx
    have hx1 := mem_stripDash _ x hx
    obtain ⟨y, _, hy⟩ := List.mem_map.mp hx1
    rw [← hy]
    exact isUpperAscii_normCh y
  have hno : containsSub ddL (collapseDashes (stripDash (title.map normCh))) = false :=
    collapseLoop_no_dd _ _ (Nat.le_refl _)
  have hhead : (collapseDashes (stripDash (title.map normCh))).head? ≠ some '-' :=
    collapseLoop_head _ _ (stripDash_head _)
  have hlast : (collapseDashes (stripDash (title.map normCh))).getLast? =
      (stripDash (title.map normCh)).getLast? :=
    collapseLoop_getLast _ _ (stripDash_getLast _)
  by_cases hemp : (collapseDashes (stripDash (title.map normCh))).isEmpty
  · rw [hslug, if_pos hemp]
    refine ⟨by decide, by decide, by decide, by decide, fun _ => rfl, fun _ => by decide⟩
  · rw [hslug, if_neg hemp]
    refine ⟨?_, ?_, ?_, ?_, ?_, ?_⟩
    · intro c hc
      exact hall c (List.take_subset 90 _ hc)
    · refine Bool.eq_false_iff.mpr ?_
      intro htr
      exact absurd (containsSub_prefix_mono ddL _ _ (List.take_prefix ..) htr)
        (by rw [hno]; exact Bool.false_ne_true)
    · rw [head?_take 90 (by omega)]
      exact hhead
    · simp only [List.length_take]
      omega
    · intro h0
      exfalso
      apply hemp
      rw [h0]
      decide
    · intro hlen
      rw [List.take_of_length_le hlen, hlast]
      exact stripDash_getLast _

/-- C5 witness: the empty-reduction case and the untruncated
no-trailing-separator case at concrete titles. -/
theorem slugify_normal_form_witness :
    slugify "!!!".toList = "article".toList ∧
    (slugify "My Article!".toList).getLast? ≠ some '-' :=
  ⟨(slugify_normal_form "!!!".toList).2.2.2.2.1 (by decide),
   (slugify_normal_form "My Article!".toList).2.2.2.2.2 (by decide)⟩

/-! ## Claim theorems: command error handling -/

/-- C7 counterexample: a recoverable-input error can follow a
mutation.  In `archive_channel`, `ensure_categories` runs before the
text-channel check, so invoking `/archive` on a non-text target in a
guild still missing its categories creates both categories and then
reports the recoverable "choose a text channel" error — the claimed
"no partial mutation" is violated. -/
theorem archive_mutates_before_target_check :
    (archiveCmd true "Active Articles".toList "Archived Articles".toList false false false
      none 0 ⟨none, 0, []⟩).2 = ArchiveOutcome.errNotText ∧
    (archiveCmd true "Active Articles".toList "Archived Articles".toList false false false
      none 0 ⟨none, 0, []⟩).1 ≠ [] := by
  decide

/-- C7 (amended): the guild-missing and unparsable-deadline errors of
`/new_article` and the guild-missing error of `/archive` happen before
any mutation; the non-text-target error of `/archive` happens before
any mutation only when both categories already exist, because
`ensure_categories` runs before that check. -/
theorem recoverable_errors_no_mutation
    (nowYear : Nat) (aN bN : List Char) (aEx bEx tIsText : Bool) (e : Option Nat) (d : Nat)
    (cached isMember : Nat → Bool) (title deadline : List Char) (writers : Option (List Char))
    (tgt : Channel) :
    (newArticleCmd false nowYear aN bN aEx bEx e d cached isMember title deadline writers =
      ([], .errGuild)) ∧
    (parse_when nowYear deadline = none →
      newArticleCmd true nowYear aN bN aEx bEx e d cached isMember title deadline writers =
        ([], .errBadDeadline)) ∧
    (archiveCmd false aN bN aEx bEx tIsText e d tgt = ([], .errGuild)) ∧
    (archiveCmd true aN bN true true false e d tgt = ([], .errNotText)) := by
  refine ⟨rfl, ?_, rfl, rfl⟩
  intro h
  simp [newArticleCmd, h]

/-- C7 witness: the amended statement at a concrete unparsable
deadline. -/
theorem recoverable_errors_no_mutation_witness :
    parse_when 2025 "not a date".toList = none ∧
    newArticleCmd true 2025 "Active Articles".toList "Archived Articles".toList true true
      none 0 (fun _ => false) (fun _ => false) "T".toList "not a date".toList none =
      ([], .errBadDeadline) :=
  ⟨by decide,
   (recoverable_errors_no_mutation 2025 "Active Articles".toList "Archived Articles".toList
     true true false none 0 (fun _ => false) (fun _ => false) "T".toList "not a date".toList
     none ⟨none, 0, []⟩).2.1 (by decide)⟩

/-- C8: the malformed-token half of the claim holds — `junk` and
`<@abc>` are silently dropped and creation succeeds with the remaining
writer — but a *well-formed* token naming a non-member is not silently
discarded: `guild.get_member` misses, `guild.fetch_member` raises
`NotFound`, the handler's generic `except` reports an error, and no
channel is created, contradicting the claim (and the dead `if member:`
guard shows skipping was the intent). -/
theorem new_article_nonmember_token_aborts :
    (newArticleCmd true 2025 "A".toList "B".toList true true (some 5) 9
      (fun u => u == 123) (fun _ => false) "T".toList "2025-09-07".toList
      (some "<@123> junk <@abc>".toList)).2 = NewArticleOutcome.ok [123] ∧
    newArticleCmd true 2025 "A".toList "B".toList true true (some 5) 9
      (fun _ => false) (fun _ => false) "T".toList "2025-09-07".toList
      (some "<@999>".toList) = ([], NewArticleOutcome.errNotFound) := by
  decide
